import Mathlib

/-!
Verification of the markup-to-page-layout converter of `backend/main.py`.

The converter (`html_to_flowables`, lines 60-183) receives the markup string
and walks the tree that BeautifulSoup's `html.parser` built from it.  The
tree walk, the inline formatter (`process_inline`, lines 78-97), the list
renderer (`render_list`, lines 99-141), the alignment reader
(`get_alignment`, lines 69-76) and the attached-document lines of
`create_front_page` (line 233) are translated below.  BeautifulSoup itself
is an external library; the conversion is therefore modelled as a function
of the markup string together with the parsed forest (a list of top-level
nodes), and theorems about whole inputs quantify over every possible
parsed forest.

Python strings are modelled by `String`; `str.strip()` is modelled by
`pyStrip` (drop ASCII whitespace from both ends), `in` (substring test) by
`containsSub`, `''.join` by `sjoin`.  A ReportLab `Paragraph(text, style)`
becomes `Flowable.para text style` where `ParaStyle` keeps the fields the
source sets (style name, parent style-sheet entry, and the optional
alignment / indent overrides); a `Spacer(w, h)` becomes
`Flowable.spacer w h`.  Every length the source passes is an integer
multiple of ReportLab's `mm` unit (a fixed positive number of points,
72 / 25.4) except the constant `Spacer` width `1`, so lengths are
recorded as the integer factor — heights and indents in `mm` — which
preserves every equality and every order comparison of the real point
values.
-/

/-! ## Python string primitives -/

/-- ASCII whitespace characters stripped by Python's `str.strip()`.
(The exotic Unicode whitespace that Python also strips plays no role in
any claim.) -/
def isPyWS (c : Char) : Bool :=
  c == ' ' || c == '\t' || c == '\n' || c == '\r' || c == '\x0b' || c == '\x0c'

/-- Drop leading whitespace. -/
def dropW (l : List Char) : List Char := l.dropWhile isPyWS

/-- Drop trailing whitespace. -/
def dropWEnd (l : List Char) : List Char := (dropW l.reverse).reverse

/-- Drop whitespace from both ends, as Python's `str.strip()` does. -/
def trimL (l : List Char) : List Char := dropWEnd (dropW l)

/-- Python's `s.strip()`. -/
def pyStrip (s : String) : String := ⟨trimL s.data⟩

/-- Python's `''.join(parts)`. -/
def sjoin : List String → String
  | [] => ""
  | s :: r => s ++ sjoin r

/-- Whether `p` occurs at the start of `s`. -/
def leadsWith : List Char → List Char → Bool
  | [], _ => true
  | _ :: _, [] => false
  | a :: p, b :: s => a == b && leadsWith p s

/-- Whether `p` occurs somewhere in `s`. -/
def listHas (p : List Char) : List Char → Bool
  | [] => leadsWith p []
  | c :: rest => leadsWith p (c :: rest) || listHas p rest

/-- Python's substring test `pat in s`. -/
def containsSub (s pat : String) : Bool := listHas pat.data s.data

/-- Python's `html.escape(name)` (with its default `quote=True`): the five
markup-significant characters are replaced by entities.  The source's
sequential `str.replace` calls replace `&` first, so the replacement is
equivalent to this single character-wise pass. -/
def escChar (c : Char) : List Char :=
  if c = '&' then "&amp;".data
  else if c = '<' then "&lt;".data
  else if c = '>' then "&gt;".data
  else if c = '"' then "&quot;".data
  else if c = '\'' then "&#x27;".data
  else [c]

/-- Python's `html.escape`. -/
def pyEscape (s : String) : String := ⟨s.data.flatMap escChar⟩

/-! ## The parsed markup tree

BeautifulSoup hands the walker a tree of `NavigableString`s and `Tag`s; a
tag has a name, an attribute dictionary (modelled as an association list,
`get` returning the first binding) and an ordered list of children. -/

inductive HNode where
  | text (s : String)
  | tag (name : String) (attrs : List (String × String)) (children : List HNode)

/-! BeautifulSoup's `element.get_text()`: all descendant strings joined. -/
mutual
def textContent : HNode → String
  | .text s => s
  | .tag _ _ cs => textContents cs

def textContents : List HNode → String
  | [] => ""
  | c :: r => textContent c ++ textContents r
end

/-! ## ReportLab flowables -/

/-- ReportLab's `TA_LEFT`. -/
def TA_LEFT : Nat := 0
/-- ReportLab's `TA_CENTER`. -/
def TA_CENTER : Nat := 1
/-- ReportLab's `TA_RIGHT`. -/
def TA_RIGHT : Nat := 2

/-- The data a `ParagraphStyle(...)` call of the source carries: the style
name, the name of the style-sheet entry passed as `parent=`, and the three
overrides the source ever sets (`alignment=`, `leftIndent=`,
`firstLineIndent=`); `none` means the field is inherited from the parent. -/
structure ParaStyle where
  name : String
  parent : String
  alignment : Option Nat
  leftIndent : Option Int
  firstLineIndent : Option Int
  deriving DecidableEq

/-- A layout primitive: `Paragraph(text, style)` or `Spacer(width, height)`. -/
inductive Flowable where
  | para (text : String) (style : ParaStyle)
  | spacer (width height : Int)
  deriving DecidableEq

/-! ## get_alignment (main.py lines 69-76) -/

/-- Lines 69-76: `style = element.get('style', '')`, then membership tests
of the literal patterns in that string. -/
def get_alignment : HNode → Nat
  | .text _ => TA_LEFT
  | .tag _ attrs _ =>
      let style := (attrs.lookup "style").getD ""
      if containsSub style "text-align: center" || containsSub style "text-align:center" then
        TA_CENTER
      else if containsSub style "text-align: right" || containsSub style "text-align:right" then
        TA_RIGHT
      else TA_LEFT

/-! ## process_inline (main.py lines 78-97)

`process_inline` returns a `NavigableString` unchanged; on a tag it walks
the children collecting strings (`result`), wrapping the recursively
processed content of `strong`/`b`, `em`/`i`, `u` children in the ReportLab
markup `<b>`, `<i>`, `<u>`, keeping other tags' processed content bare, and
returns `''.join(result).strip()`.  The source wraps
`process_inline(child)`, which on a tag child equals the trimmed join of
that child's parts; the child case below inlines that one step. -/

mutual
def process_inline : HNode → String
  | .text s => s
  | .tag _ _ cs => pyStrip (sjoin (processChildren cs))

def processChildren : List HNode → List String
  | [] => []
  | c :: rest => processChild c :: processChildren rest

def processChild : HNode → String
  | .text s => s
  | .tag n _ cs =>
      if n == "strong" || n == "b" then
        "<b>" ++ pyStrip (sjoin (processChildren cs)) ++ "</b>"
      else if n == "em" || n == "i" then
        "<i>" ++ pyStrip (sjoin (processChildren cs)) ++ "</i>"
      else if n == "u" then
        "<u>" ++ pyStrip (sjoin (processChildren cs)) ++ "</u>"
      else
        pyStrip (sjoin (processChildren cs))
end

/-! ## render_list (main.py lines 99-141)

The loop `for li in list_element.find_all('li', recursive=False)` visits
the direct tag children named `li` in order, incrementing `item_num` for
each; `renderListLis` fuses that iteration with the loop body, threading
`item_num`.  The direct text of an item (`text_parts`) walks `li.children`
until the first nested `ul`/`ol`; the trailing
`for nested_list in li.find_all(['ul', 'ol'], recursive=False)` is
`renderListNested`. -/

/-- Lines 110-119: the `text_parts` accumulation, stopping at the first
nested list; tag children other than `ul`/`ol` contribute
`process_inline(child)`. -/
def directText : List HNode → String
  | [] => ""
  | .text s :: rest => s ++ directText rest
  | .tag n a cs :: rest =>
      if n == "ul" || n == "ol" then ""
      else process_inline (.tag n a cs) ++ directText rest

mutual
def render_list : HNode → Nat → List Flowable
  | .text _, _ => []
  | .tag name _ cs, level => renderListLis (name == "ol") level 0 cs

def renderListLis (isOrdered : Bool) (level itemNum : Nat) : List HNode → List Flowable
  | [] => []
  | .text _ :: rest => renderListLis isOrdered level itemNum rest
  | .tag n _ lcs :: rest =>
      if n == "li" then
        let num := itemNum + 1
        let t := pyStrip (directText lcs)
        (if t ≠ "" then
          [Flowable.para
            ((if isOrdered then toString num ++ ".  " else "•  ") ++ t)
            ⟨"list_" ++ toString level ++ "_" ++ toString num, "Normal",
              none, some (10 + (level : Int) * 10), some (-5)⟩,
           Flowable.spacer 1 1]
         else []) ++
        renderListNested level lcs ++ renderListLis isOrdered level num rest
      else renderListLis isOrdered level itemNum rest

def renderListNested (level : Nat) : List HNode → List Flowable
  | [] => []
  | .text _ :: rest => renderListNested level rest
  | .tag n a ncs :: rest =>
      if n == "ul" || n == "ol" then
        render_list (.tag n a ncs) (level + 1) ++ renderListNested level rest
      else renderListNested level rest
end

/-! ## Instrumented list rendering

`render_list` encodes the item's depth and ordinal only inside the style
name, the indent and the marker text of the emitted `Paragraph`.  To state
depth/ordinal claims, `renderItems` runs the identical recursion but
records each emitted item as a record; `render_list_eq_items` below proves
that interpreting the records reproduces `render_list` exactly. -/

/-- One emitted list-item block: its indentation depth, the ordinal it
consumed, whether its list was ordered, the marker prepended to the text,
and the (trimmed) direct text. -/
structure LItem where
  depth : Nat
  num : Nat
  ordered : Bool
  marker : String
  text : String
  deriving DecidableEq

/-- The paragraph and trailing spacer a recorded item stands for. -/
def itemFlows (i : LItem) : List Flowable :=
  [Flowable.para (i.marker ++ i.text)
    ⟨"list_" ++ toString i.depth ++ "_" ++ toString i.num, "Normal",
      none, some (10 + (i.depth : Int) * 10), some (-5)⟩,
   Flowable.spacer 1 1]

mutual
def renderItems : HNode → Nat → List LItem
  | .text _, _ => []
  | .tag name _ cs, level => renderItemsLis (name == "ol") level 0 cs

def renderItemsLis (isOrdered : Bool) (level itemNum : Nat) : List HNode → List LItem
  | [] => []
  | .text _ :: rest => renderItemsLis isOrdered level itemNum rest
  | .tag n _ lcs :: rest =>
      if n == "li" then
        let num := itemNum + 1
        let t := pyStrip (directText lcs)
        (if t ≠ "" then
          [⟨level, num, isOrdered,
            (if isOrdered then toString num ++ ".  " else "•  "), t⟩]
         else []) ++
        renderItemsNested level lcs ++ renderItemsLis isOrdered level num rest
      else renderItemsLis isOrdered level itemNum rest

def renderItemsNested (level : Nat) : List HNode → List LItem
  | [] => []
  | .text _ :: rest => renderItemsNested level rest
  | .tag n a ncs :: rest =>
      if n == "ul" || n == "ol" then
        renderItems (.tag n a ncs) (level + 1) ++ renderItemsNested level rest
      else renderItemsNested level rest
end

/-- Direct children that are `li` tags (what `find_all('li', recursive=False)`
returns). -/
def isLiTag : HNode → Bool
  | .text _ => false
  | .tag n _ _ => n == "li"

/-- Direct children that are `ul`/`ol` tags (what
`find_all(['ul', 'ol'], recursive=False)` returns). -/
def isListTag : HNode → Bool
  | .tag n _ _ => n == "ul" || n == "ol"
  | _ => false

/-- What the `j`-th direct `li` (1-based) of a list at depth `lv`
contributes: its own block if its direct text is nonempty, then its nested
lists rendered at depth `lv + 1`. -/
def liContrib (isOrdered : Bool) (lv j : Nat) : HNode → List LItem
  | .text _ => []
  | .tag _ _ lcs =>
      (if pyStrip (directText lcs) ≠ "" then
        [⟨lv, j, isOrdered,
          (if isOrdered then toString j ++ ".  " else "•  "),
          pyStrip (directText lcs)⟩]
       else []) ++
      (lcs.filter isListTag).flatMap (fun l => renderItems l (lv + 1))

/-! ## Spec-side list traversal (for the depth claim)

Modelled from the spec: "every ListItemBlock's depth equals the number of
list ancestors strictly enclosing its originating `li`", with the
pre-order traversal of section 4.3 ("each li's own block first, then its
nested lists, before the next sibling").  `specItems el anc` is that
traversal, where `anc` is the number of `ul`/`ol` ancestors strictly
enclosing the list element `el` itself; a direct `li` of `el` is then
strictly enclosed by `anc + 1` lists (its own list plus `el`'s ancestors),
which is the depth this definition records, and a list nested inside such
an `li` is strictly enclosed by those same `anc + 1` lists. -/
mutual
def specItems : HNode → Nat → List LItem
  | .text _, _ => []
  | .tag name _ cs, anc => specItemsLis (name == "ol") anc 0 cs

def specItemsLis (isOrdered : Bool) (anc itemNum : Nat) : List HNode → List LItem
  | [] => []
  | .text _ :: rest => specItemsLis isOrdered anc itemNum rest
  | .tag n _ lcs :: rest =>
      if n == "li" then
        let num := itemNum + 1
        let t := pyStrip (directText lcs)
        (if t ≠ "" then
          [⟨anc + 1, num, isOrdered,
            (if isOrdered then toString num ++ ".  " else "•  "), t⟩]
         else []) ++
        specItemsNested anc lcs ++ specItemsLis isOrdered anc num rest
      else specItemsLis isOrdered anc itemNum rest

def specItemsNested (anc : Nat) : List HNode → List LItem
  | [] => []
  | .text _ :: rest => specItemsNested anc rest
  | .tag n a ncs :: rest =>
      if n == "ul" || n == "ol" then
        specItems (.tag n a ncs) (anc + 1) ++ specItemsNested anc rest
      else specItemsNested anc rest
end

/-- Replace an item's recorded depth (a count of strictly enclosing list
ancestors) by the renderer's depth, which is one less: the item's own list
contributes indentation level 0 when it is outermost. -/
def demote (i : LItem) : LItem :=
  ⟨i.depth - 1, i.num, i.ordered, i.marker, i.text⟩

/-! ## The top-level walk (main.py lines 143-183) -/

/-- The body of `for element in soup.children`: strings are skipped,
`h1`/`h2`/`h3` emit a styled paragraph and a spacer of 6/4/3 mm, `p` emits
a paragraph and a 2 mm spacer only when its formatted text is nonempty,
`ul`/`ol` delegate to `render_list` and append a 2 mm spacer, and any
other tag emits nothing. -/
def blockFlowables : HNode → List Flowable
  | .text _ => []
  | .tag tg attrs cs =>
      if tg == "h1" then
        [Flowable.para (process_inline (.tag tg attrs cs))
          ⟨"h1", "Heading1", some (get_alignment (.tag tg attrs cs)), none, none⟩,
         Flowable.spacer 1 6]
      else if tg == "h2" then
        [Flowable.para (process_inline (.tag tg attrs cs))
          ⟨"h2", "Heading2", some (get_alignment (.tag tg attrs cs)), none, none⟩,
         Flowable.spacer 1 4]
      else if tg == "h3" then
        [Flowable.para (process_inline (.tag tg attrs cs))
          ⟨"h3", "Heading3", some (get_alignment (.tag tg attrs cs)), none, none⟩,
         Flowable.spacer 1 3]
      else if tg == "p" then
        (if process_inline (.tag tg attrs cs) ≠ "" then
          [Flowable.para (process_inline (.tag tg attrs cs))
            ⟨"p", "Normal", some (get_alignment (.tag tg attrs cs)), none, none⟩,
           Flowable.spacer 1 2]
         else [])
      else if tg == "ul" || tg == "ol" then
        render_list (.tag tg attrs cs) 0 ++ [Flowable.spacer 1 2]
      else []

/-- Whether a top-level node is one of the block tags the walker
dispatches on (`h1`, `h2`, `h3`, `p`, `ul`, `ol`). -/
def isTopBlockTag : HNode → Bool
  | .text _ => false
  | .tag n _ _ =>
      n == "h1" || n == "h2" || n == "h3" || n == "p" || n == "ul" || n == "ol"

/-- Lines 60-183: empty or whitespace-only markup returns no flowables;
otherwise the children of the parsed soup are dispatched in order.
`soup` is the forest BeautifulSoup parsed from `html`. -/
def html_to_flowables (html : String) (soup : List HNode) : List Flowable :=
  if pyStrip html = "" then [] else soup.flatMap blockFlowables

/-- Line 233 of `create_front_page`: the line emitted for the `i`-th
attached document, `f"{i}. {html_module.escape(name)}"`. -/
def attachedNameLine (i : Nat) (name : String) : String :=
  toString i ++ ". " ++ pyEscape name

/-! ## Extracting the plain text of a ReportLab markup string

`process_inline` returns a flat ReportLab markup string; the styled run it
denotes consists of the text outside the `<...>` tags.  `stripTags`
removes every such tag, so `stripTags (process_inline el)` is the
concatenation of the text segments of the produced run. -/

/-- Tag-removal automaton: outside a tag (`inTag = false`) characters are
kept until a `<`; inside a tag characters are discarded until a `>`. -/
def stripA (inTag : Bool) : List Char → List Char
  | [] => []
  | c :: r =>
      if inTag then (if c = '>' then stripA false r else stripA true r)
      else (if c = '<' then stripA true r else c :: stripA false r)

/-- The automaton state after reading `l`. -/
def tagState (inTag : Bool) : List Char → Bool
  | [] => inTag
  | c :: r =>
      if inTag then (if c = '>' then tagState false r else tagState true r)
      else (if c = '<' then tagState true r else tagState false r)

/-- Remove every `<...>` tag from a character list. -/
def stripT (l : List Char) : List Char := stripA false l

/-- Remove every `<...>` tag from a string: the concatenated text segments
of the styled run the markup string denotes. -/
def stripTags (s : String) : String := ⟨stripT s.data⟩

/-- The character list contains no `<` (so it is markup-free text). -/
def noLt (l : List Char) : Bool := l.all (fun c => c != '<')

/-! ## Spec-side trimmed visible text

The visible text of a node with the trim applied at every element
boundary: a text node contributes its characters, an element contributes
the join of its children's contributions trimmed at that element's own
boundary.  (This is the tree-level counterpart of what `process_inline`
does to the text, stated without any markup.) -/

mutual
def inlineText : HNode → String
  | .text s => s
  | .tag _ _ cs => pyStrip (sjoin (inlineTexts cs))

def inlineTexts : List HNode → List String
  | [] => []
  | c :: r => inlineText c :: inlineTexts r
end

/-! ## Clean inline content

`cleanForest cs` holds when every text node below `cs` is free of `<`
(its characters cannot be mistaken for markup) and every styled
(`strong`/`b`/`em`/`i`/`u`) element below `cs` has nonempty trimmed
content (an empty `<b></b>` wrapper in the output blocks the outer
`strip()` without contributing text). -/

mutual
def cleanNode : HNode → Bool
  | .text s => noLt s.data
  | .tag n _ cs =>
      cleanForest cs &&
      (if n == "strong" || n == "b" || n == "em" || n == "i" || n == "u" then
        pyStrip (sjoin (inlineTexts cs)) != ""
       else true)

def cleanForest : List HNode → Bool
  | [] => true
  | c :: r => cleanNode c && cleanForest r
end

/-- Every character of the list is whitespace. -/
def WSp (l : List Char) : Prop := ∀ c ∈ l, isPyWS c = true

/-! ## ReportLab's construction-time markup validation

ReportLab's `Paragraph(text, style)` is not an inert value: its
constructor parses `text` as paragraph markup (`ParaParser`) and raises
`ValueError` when the text contains a tag whose name it does not know.
Since every `Paragraph` the conversion constructs is also appended to its
output (lines 134, 155, 161, 167 and 175 each construct and immediately
append), the call raises if and only if some emitted paragraph's text is
rejected.  `ParaParser` also rejects some ill-formed markup beyond
unknown tag names; the name check modelled here is the rejection the
conversion can actually trigger through verbatim, unescaped text. -/

/-- The spans between `<` and `>` of a markup string: the automaton keeps
the characters of the tag currently being read (`some acc`, reversed), or
`none` outside a tag. -/
def tagSpans (st : Option (List Char)) : List Char → List (List Char)
  | [] => []
  | c :: r =>
      match st with
      | none => if c = '<' then tagSpans (some []) r else tagSpans none r
      | some acc =>
          if c = '>' then acc.reverse :: tagSpans none r
          else tagSpans (some (c :: acc)) r

/-- The tag-reading state after scanning the list. -/
def tagSpanState (st : Option (List Char)) : List Char → Option (List Char)
  | [] => st
  | c :: r =>
      match st with
      | none => if c = '<' then tagSpanState (some []) r else tagSpanState none r
      | some acc =>
          if c = '>' then tagSpanState none r
          else tagSpanState (some (c :: acc)) r

/-- The name of a tag from the span between `<` and `>`: an optional
leading `/` (a closing tag) is dropped and the name runs to the first
whitespace or `/`; tag names are case-insensitive, so the name is
lowercased as Python's HTMLParser does. -/
def tagNameOf (body : List Char) : List Char :=
  ((match body with
    | '/' :: r => r
    | b => b).takeWhile (fun c => !(isPyWS c || c == '/'))).map Char.toLower

/-- The tag names ReportLab's `ParaParser` handles (paraparser.py); a tag
with any other name makes `Paragraph` construction raise `ValueError`.
Only the membership of `b`, `i`, `u` — the tags the inline formatter
itself emits — and the non-membership of arbitrary other names (such as
`foo`) carry weight in the theorems below. -/
def paraKnownTags : List String :=
  ["b", "strong", "i", "em", "u", "strike", "sub", "sup", "super", "font",
   "span", "greek", "para", "br", "a", "link", "img", "index", "unichar",
   "ondraw", "nobr", "seq", "seqreset", "seqdefault", "seqformat", "bullet"]

/-- Whether one tag span is acceptable to `ParaParser`. -/
def knownTag (body : List Char) : Bool :=
  paraKnownTags.contains (String.mk (tagNameOf body))

/-- Whether every tag of the character list has a known name. -/
def goodTags (l : List Char) : Bool := (tagSpans none l).all knownTag

/-- Whether `ParaParser` accepts the markup string, i.e. whether
`Paragraph(text, style)` constructs without raising. -/
def paraTextValid (s : String) : Bool := goodTags s.data

/-- Whether one flowable's construction succeeds: a `Spacer` always does,
a `Paragraph` exactly when its markup text is accepted. -/
def flowOk : Flowable → Bool
  | .para t _ => paraTextValid t
  | .spacer _ _ => true

/-- Whether every flowable of the list constructs without raising. -/
def flowablesOk (fl : List Flowable) : Bool := fl.all flowOk

deriving instance DecidableEq for Except

/-- Lines 60-183 with the raise path restored: the walk builds each
`Paragraph` eagerly as it appends it, so the call raises `ValueError`
exactly when one of the flowables it would emit has a rejected markup
text, and returns the flowable list otherwise.  (Which paragraph raises
first is not modelled, only whether the call raises.) -/
def html_to_flowablesE (html : String) (soup : List HNode) : Except String (List Flowable) :=
  if pyStrip html = "" then Except.ok []
  else if flowablesOk (soup.flatMap blockFlowables) then
    Except.ok (soup.flatMap blockFlowables)
  else Except.error "ValueError"

/-- The output of the inline formatter on a clean forest is a
concatenation of pieces: markup-free text segments, and element
contributions `l` whose tag-stripped text is `m`, which are closed for
the tag automaton, trimmed on both sides, and empty whenever their text
is empty.  `Pieces J T` relates the concatenated markup `J` to the
concatenated text `T`. -/
inductive Pieces : List Char → List Char → Prop
  | nil : Pieces [] []
  | txt (s J T : List Char) (hs : noLt s = true) (h : Pieces J T) :
      Pieces (s ++ J) (s ++ T)
  | elt (l m J T : List Char)
      (hstrip : stripT l = m) (hclosed : tagState false l = false)
      (hl : trimL l = l) (hm : trimL m = m) (hnil : m = [] → l = [])
      (hgood : goodTags l = true)
      (h : Pieces J T) : Pieces (l ++ J) (m ++ T)

/-! # Theorems -/

/-! ## Mutual induction over the node tree -/

mutual
theorem nodeInd (P : HNode → Prop) (Q : List HNode → Prop)
    (htext : ∀ s, P (.text s))
    (htag : ∀ n a cs, Q cs → P (.tag n a cs))
    (hnil : Q [])
    (hcons : ∀ c cs, P c → Q cs → Q (c :: cs)) : ∀ e, P e
  | .text s => htext s
  | .tag n a cs => htag n a cs (forestInd P Q htext htag hnil hcons cs)

theorem forestInd (P : HNode → Prop) (Q : List HNode → Prop)
    (htext : ∀ s, P (.text s))
    (htag : ∀ n a cs, Q cs → P (.tag n a cs))
    (hnil : Q [])
    (hcons : ∀ c cs, P c → Q cs → Q (c :: cs)) : ∀ cs, Q cs
  | [] => hnil
  | c :: cs =>
      hcons c cs (nodeInd P Q htext htag hnil hcons c)
        (forestInd P Q htext htag hnil hcons cs)
end

/-! ## render_list refines to the item records -/

theorem renderItems_glue :
    ∀ cs : List HNode,
      (∀ isO lv k, renderListLis isO lv k cs = (renderItemsLis isO lv k cs).flatMap itemFlows) ∧
      (∀ lv, renderListNested lv cs = (renderItemsNested lv cs).flatMap itemFlows) := by
  apply forestInd
    (fun e => match e with
      | .text _ => True
      | .tag _ _ lcs =>
        (∀ isO lv k, renderListLis isO lv k lcs = (renderItemsLis isO lv k lcs).flatMap itemFlows) ∧
        (∀ lv, renderListNested lv lcs = (renderItemsNested lv lcs).flatMap itemFlows))
  · intro s; trivial
  · intro n a cs h; exact h
  · constructor
    · intro isO lv k; rfl
    · intro lv; rfl
  · intro c cs hP hQ
    constructor
    · intro isO lv k
      cases c with
      | text s => simpa [renderListLis, renderItemsLis] using hQ.1 isO lv k
      | tag n a lcs =>
          by_cases hn : n == "li"
          · have hnest := hP.2 lv
            simp only [renderListLis, renderItemsLis, hn, if_true, List.flatMap_append,
              hQ.1 isO lv (k + 1), hnest]
            by_cases ht : pyStrip (directText lcs) ≠ "" <;> simp [ht, itemFlows]
          · simpa [renderListLis, renderItemsLis, hn] using hQ.1 isO lv k
    · intro lv
      cases c with
      | text s => simpa [renderListNested, renderItemsNested] using hQ.2 lv
      | tag n a ncs =>
          by_cases hn : (n == "ul" || n == "ol") = true
          · have hsub : render_list (.tag n a ncs) (lv + 1) =
                (renderItems (.tag n a ncs) (lv + 1)).flatMap itemFlows := by
              simpa [render_list, renderItems] using hP.1 (n == "ol") (lv + 1) 0
            simp [renderListNested, renderItemsNested, hn, List.flatMap_append, hsub, hQ.2 lv]
          · simpa [renderListNested, renderItemsNested, hn] using hQ.2 lv

/-- Interpreting the recorded items reproduces `render_list` exactly. -/
theorem render_list_eq_items (e : HNode) (lv : Nat) :
    render_list e lv = (renderItems e lv).flatMap itemFlows := by
  cases e with
  | text s => rfl
  | tag n a cs =>
      simpa [render_list, renderItems] using (renderItems_glue cs).1 (n == "ol") lv 0

/-! ## The renderer's depth against the spec's ancestor count -/

theorem specItems_glue :
    ∀ cs : List HNode,
      (∀ isO anc k, renderItemsLis isO anc k cs = (specItemsLis isO anc k cs).map demote) ∧
      (∀ anc, renderItemsNested anc cs = (specItemsNested anc cs).map demote) := by
  apply forestInd
    (fun e => match e with
      | .text _ => True
      | .tag _ _ lcs =>
        (∀ isO anc k, renderItemsLis isO anc k lcs = (specItemsLis isO anc k lcs).map demote) ∧
        (∀ anc, renderItemsNested anc lcs = (specItemsNested anc lcs).map demote))
  · intro s; trivial
  · intro n a cs h; exact h
  · constructor
    · intro isO anc k; rfl
    · intro anc; rfl
  · intro c cs hP hQ
    constructor
    · intro isO anc k
      cases c with
      | text s => simpa [renderItemsLis, specItemsLis] using hQ.1 isO anc k
      | tag n a lcs =>
          by_cases hn : n == "li"
          · have hnest := hP.2 anc
            simp only [renderItemsLis, specItemsLis, hn, if_true, List.map_append,
              hQ.1 isO anc (k + 1), hnest]
            by_cases ht : pyStrip (directText lcs) ≠ "" <;> simp [ht, demote]
          · simpa [renderItemsLis, specItemsLis, hn] using hQ.1 isO anc k
    · intro anc
      cases c with
      | text s => simpa [renderItemsNested, specItemsNested] using hQ.2 anc
      | tag n a ncs =>
          by_cases hn : (n == "ul" || n == "ol") = true
          · have hsub : renderItems (.tag n a ncs) (anc + 1) =
                (specItems (.tag n a ncs) (anc + 1)).map demote := by
              simpa [renderItems, specItems] using hP.1 (n == "ol") (anc + 1) 0
            simp [renderItemsNested, specItemsNested, hn, List.map_append, hsub, hQ.2 anc]
          · simpa [renderItemsNested, specItemsNested, hn] using hQ.2 anc

/-- The items the renderer emits are exactly the spec-side traversal's
items with every recorded ancestor count lowered by one. -/
theorem renderItems_eq_spec (e : HNode) (anc : Nat) :
    renderItems e anc = (specItems e anc).map demote := by
  cases e with
  | text s => rfl
  | tag n a cs =>
      simpa [renderItems, specItems] using (specItems_glue cs).1 (n == "ol") anc 0

/-! ## Scope structure of a list: 1-based enumeration of its direct items -/

theorem renderItemsNested_eq_filter (lv : Nat) :
    ∀ cs, renderItemsNested lv cs = (cs.filter isListTag).flatMap (fun l => renderItems l (lv + 1)) := by
  intro cs
  induction cs with
  | nil => rfl
  | cons c rest ih =>
      cases c with
      | text s => simpa [renderItemsNested, isLiTag, isListTag, List.filter_cons] using ih
      | tag n a ncs =>
          by_cases hn : (n == "ul" || n == "ol") = true
          · simp [renderItemsNested, isListTag, List.filter_cons, hn, ih]
          · simp [renderItemsNested, isListTag, List.filter_cons, hn, ih]

theorem renderItemsLis_eq_enum (isO : Bool) (lv : Nat) :
    ∀ cs k, renderItemsLis isO lv k cs =
      ((cs.filter isLiTag).enumFrom (k + 1)).flatMap (fun p => liContrib isO lv p.1 p.2) := by
  intro cs
  induction cs with
  | nil => intro k; rfl
  | cons c rest ih =>
      intro k
      cases c with
      | text s => simpa [renderItemsLis, isLiTag, List.filter_cons] using ih k
      | tag n a lcs =>
          by_cases hn : n == "li"
          · simp only [renderItemsLis, hn, if_true, isLiTag, List.filter_cons,
              List.enumFrom_cons, List.flatMap_cons, liContrib,
              renderItemsNested_eq_filter lv lcs, ih (k + 1)]
          · simpa [renderItemsLis, isLiTag, List.filter_cons, hn] using ih k

/-- A list scope enumerates its direct `li` children from 1, each item
consuming one ordinal, nested lists rendered one level deeper. -/
theorem renderItems_scope (nm : String) (a : List (String × String)) (cs : List HNode) (lv : Nat) :
    renderItems (.tag nm a cs) lv =
      ((cs.filter isLiTag).enumFrom 1).flatMap (fun p => liContrib (nm == "ol") lv p.1 p.2) := by
  simpa [renderItems] using renderItemsLis_eq_enum (nm == "ol") lv cs 0

/-! ## Marker shape of every emitted item -/

theorem renderItems_marker_aux :
    ∀ cs : List HNode,
      (∀ isO lv k i, i ∈ renderItemsLis isO lv k cs →
        i.marker = (if i.ordered then toString i.num ++ ".  " else "•  ")) ∧
      (∀ lv i, i ∈ renderItemsNested lv cs →
        i.marker = (if i.ordered then toString i.num ++ ".  " else "•  ")) := by
  apply forestInd
    (fun e => match e with
      | .text _ => True
      | .tag _ _ lcs =>
        (∀ isO lv k i, i ∈ renderItemsLis isO lv k lcs →
          i.marker = (if i.ordered then toString i.num ++ ".  " else "•  ")) ∧
        (∀ lv i, i ∈ renderItemsNested lv lcs →
          i.marker = (if i.ordered then toString i.num ++ ".  " else "•  ")))
  · intro s; trivial
  · intro n a cs h; exact h
  · constructor
    · intro isO lv k i hi; simp [renderItemsLis] at hi
    · intro lv i hi; simp [renderItemsNested] at hi
  · intro c cs hP hQ
    constructor
    · intro isO lv k i hi
      cases c with
      | text s => exact hQ.1 isO lv k i (by simpa [renderItemsLis] using hi)
      | tag n a lcs =>
          by_cases hn : (n == "li") = true
          · simp only [renderItemsLis, hn, if_true, List.mem_append] at hi
            rcases hi with (hi | hi) | hi
            · split at hi
              · simp only [List.mem_singleton] at hi
                subst hi
                cases isO <;> rfl
              · simp at hi
            · exact hP.2 lv i hi
            · exact hQ.1 isO lv (k + 1) i hi
          · exact hQ.1 isO lv k i (by simpa [renderItemsLis, hn] using hi)
    · intro lv i hi
      cases c with
      | text s => exact hQ.2 lv i (by simpa [renderItemsNested] using hi)
      | tag n a ncs =>
          by_cases hn : (n == "ul" || n == "ol") = true
          · simp only [renderItemsNested, hn, if_true, List.mem_append] at hi
            rcases hi with hi | hi
            · exact hP.1 (n == "ol") (lv + 1) 0 i (by simpa [renderItems] using hi)
            · exact hQ.2 lv i hi
          · exact hQ.2 lv i (by simpa [renderItemsNested, hn] using hi)

theorem renderItems_marker (e : HNode) (lv : Nat) (i : LItem) (hi : i ∈ renderItems e lv) :
    i.marker = (if i.ordered then toString i.num ++ ".  " else "•  ") := by
  cases e with
  | text s => simp [renderItems] at hi
  | tag n a cs =>
      exact (renderItems_marker_aux cs).1 (n == "ol") lv 0 i (by simpa [renderItems] using hi)

/-! # Claims -/

/-- C1, counterexample: piping the plain-text markup "hello world"
(which `html.parser` turns into the single top-level `NavigableString`
"hello world") through the conversion yields the empty flowable list, not
one paragraph block — the top-level walk skips `NavigableString`s
(main.py lines 145-146). -/
theorem claim_C1_counterexample :
    html_to_flowables "hello world" [HNode.text "hello world"] = [] ∧
    (html_to_flowables "hello world" [HNode.text "hello world"]).length ≠ 1 := by
  decide

/-- C1, amended: for every input whose parse leaves only plain text or
unrecognized tags at the top level (in particular markup that is only
plain text), the conversion produces zero layout primitives: the
top-level walk skips strings and undispatched tags. -/
theorem claim_C1 (html : String) (soup : List HNode)
    (h : ∀ e ∈ soup, isTopBlockTag e = false) :
    html_to_flowables html soup = [] := by
  have hb : ∀ e ∈ soup, blockFlowables e = [] := by
    intro e he
    cases e with
    | text s => rfl
    | tag nm a cs =>
        have hnm := h _ he
        simp only [isTopBlockTag, Bool.or_eq_false_iff] at hnm
        obtain ⟨⟨⟨⟨⟨h1, h2⟩, h3⟩, hp⟩, hul⟩, hol⟩ := hnm
        simp [blockFlowables, h1, h2, h3, hp, hul, hol]
  unfold html_to_flowables
  split
  · rfl
  · simpa [List.flatMap_eq_nil_iff] using hb

/-- C1, witness for the amended claim at a concrete input: a top level of
plain text and a `span`. -/
theorem claim_C1_witness :
    (∀ e ∈ [HNode.text "x ", HNode.tag "span" [("class", "x")] [HNode.text "hi"]],
      isTopBlockTag e = false) ∧
    html_to_flowables "x <span class=\"x\">hi</span>"
      [HNode.text "x ", HNode.tag "span" [("class", "x")] [HNode.text "hi"]] = [] :=
  ⟨by decide, claim_C1 _ _ (by decide)⟩

/-- C2, counterexample: the input `<ul><li></li><li>  </li></ul>` does not
produce zero layout primitives — the `ul` branch of the walk always
appends a trailing 2 mm spacer (main.py line 181), so exactly one
`Spacer` is emitted. -/
theorem claim_C2_counterexample :
    html_to_flowables "<ul><li></li><li>  </li></ul>"
        [HNode.tag "ul" [] [HNode.tag "li" [] [], HNode.tag "li" [] [HNode.text "  "]]] =
      [Flowable.spacer 1 2] ∧
    [Flowable.spacer 1 2] ≠ ([] : List Flowable) := by
  decide

/-- C2, amended: a paragraph whose formatted text is empty emits nothing,
and a list item whose direct text is empty after trimming emits no
paragraph (only its nested lists); but a list block always emits its one
trailing spacer — the example input yields exactly that spacer — and a
heading block is emitted even when its text is empty. -/
theorem claim_C2 :
    (∀ a cs, process_inline (.tag "p" a cs) = "" → blockFlowables (.tag "p" a cs) = []) ∧
    (∀ isO lv k a lcs rest, pyStrip (directText lcs) = "" →
      renderListLis isO lv k (.tag "li" a lcs :: rest) =
        renderListNested lv lcs ++ renderListLis isO lv (k + 1) rest) ∧
    (html_to_flowables "<ul><li></li><li>  </li></ul>"
        [HNode.tag "ul" [] [HNode.tag "li" [] [], HNode.tag "li" [] [HNode.text "  "]]] =
      [Flowable.spacer 1 2]) ∧
    (blockFlowables (.tag "h1" [] []) =
      [Flowable.para "" ⟨"h1", "Heading1", some TA_LEFT, none, none⟩,
       Flowable.spacer 1 6]) := by
  refine ⟨?_, ?_, by decide, by decide⟩
  · intro a cs h
    simp [blockFlowables, h]
  · intro isO lv k a lcs rest h
    simp [renderListLis, h]

/-- C2, witness: the paragraph part at `<p> </p>` and the list-item part
at `<li> </li>`. -/
theorem claim_C2_witness :
    (process_inline (.tag "p" [] [HNode.text " "]) = "" ∧
      blockFlowables (.tag "p" [] [HNode.text " "]) = []) ∧
    (pyStrip (directText [HNode.text " "]) = "" ∧
      renderListLis false 0 0 [HNode.tag "li" [] [HNode.text " "]] =
        renderListNested 0 [HNode.text " "] ++ renderListLis false 0 1 []) :=
  ⟨⟨by decide, claim_C2.1 [] [HNode.text " "] (by decide)⟩,
   ⟨by decide, claim_C2.2.1 false 0 0 [] [HNode.text " "] [] (by decide)⟩⟩

/-- C5: a list scope enumerates its direct `li` children with a 1-based
counter local to that scope (`enumFrom 1`); an unordered item's marker is
the fixed bullet glyph at every depth, an ordered item's marker is its
ordinal followed by a dot (and two spaces); nested lists are rendered with
their own fresh counter, as the spec's ordinal-reset example shows:
outer items 1,2 and inner items 1,2 independently. -/
theorem claim_C5 :
    (∀ nm a cs lv, renderItems (.tag nm a cs) lv =
      ((cs.filter isLiTag).enumFrom 1).flatMap (fun p => liContrib (nm == "ol") lv p.1 p.2)) ∧
    (∀ e lv i, i ∈ renderItems e lv →
      i.marker = (if i.ordered then toString i.num ++ ".  " else "•  ")) ∧
    ((renderItems (.tag "ol" [] [.tag "li" [] [.text "a",
        .tag "ol" [] [.tag "li" [] [.text "x"], .tag "li" [] [.text "y"]]],
        .tag "li" [] [.text "b"]]) 0).map (fun i => (i.marker, i.depth)) =
      [("1.  ", 0), ("1.  ", 1), ("2.  ", 1), ("2.  ", 0)]) :=
  ⟨renderItems_scope, renderItems_marker, by decide⟩

/-- C5, witness: the membership part applied to the single item of
`<ul><li>a</li></ul>`. -/
theorem claim_C5_witness :
    (⟨0, 1, false, "•  ", "a"⟩ : LItem) ∈
      renderItems (HNode.tag "ul" [] [HNode.tag "li" [] [HNode.text "a"]]) 0 ∧
    (⟨0, 1, false, "•  ", "a"⟩ : LItem).marker =
      (if (⟨0, 1, false, "•  ", "a"⟩ : LItem).ordered
       then toString (⟨0, 1, false, "•  ", "a"⟩ : LItem).num ++ ".  " else "•  ") :=
  ⟨by decide,
   claim_C5.2.1 (HNode.tag "ul" [] [HNode.tag "li" [] [HNode.text "a"]]) 0 _ (by decide)⟩

/-- C6, counterexample: in `<ul><li>a</li></ul>` the emitted item has
depth 0, while its `li` is strictly enclosed by one list (`specItems`
counts the enclosing lists), so the claimed equality fails. -/
theorem claim_C6_counterexample :
    (renderItems (.tag "ul" [] [.tag "li" [] [.text "a"]]) 0).map LItem.depth = [0] ∧
    (specItems (.tag "ul" [] [.tag "li" [] [.text "a"]]) 0).map LItem.depth = [1] ∧
    ([0] : List Nat) ≠ [1] := by
  decide

/-- C6, amended: the renderer's traversal is exactly the spec's pre-order
traversal (each item's own block, then its nested lists, then the next
sibling), and every emitted block's depth equals the number of list
ancestors strictly enclosing its originating `li` minus one: the
outermost list contributes no depth. -/
theorem claim_C6 (e : HNode) (anc : Nat) :
    renderItems e anc = (specItems e anc).map demote ∧
    render_list e anc = (renderItems e anc).flatMap itemFlows :=
  ⟨renderItems_eq_spec e anc, render_list_eq_items e anc⟩

/-- C7, counterexample: the attribute value `centerfold` is none of
`left`/`center`/`right`, yet the substring test of line 72 matches
`text-align: center` inside it and yields center, not the claimed left
default. -/
theorem claim_C7_counterexample :
    get_alignment (.tag "p" [("style", "text-align: centerfold")] []) = TA_CENTER ∧
    TA_CENTER ≠ TA_LEFT := by
  decide

/-- C7, amended: a missing style attribute yields left; the exact values
`text-align: center` / `right` / `left` yield center / right / left; and
the default is left whenever neither the center patterns nor the right
patterns occur as substrings of the style string — matching is by
substring, so any style value merely containing them is mapped to that
alignment. -/
theorem claim_C7 :
    (∀ nm attrs cs, attrs.lookup "style" = none →
      get_alignment (.tag nm attrs cs) = TA_LEFT) ∧
    (∀ nm cs, get_alignment (.tag nm [("style", "text-align: center")] cs) = TA_CENTER) ∧
    (∀ nm cs, get_alignment (.tag nm [("style", "text-align: right")] cs) = TA_RIGHT) ∧
    (∀ nm cs, get_alignment (.tag nm [("style", "text-align: left")] cs) = TA_LEFT) ∧
    (∀ nm attrs cs,
      containsSub ((attrs.lookup "style").getD "") "text-align: center" = false →
      containsSub ((attrs.lookup "style").getD "") "text-align:center" = false →
      containsSub ((attrs.lookup "style").getD "") "text-align: right" = false →
      containsSub ((attrs.lookup "style").getD "") "text-align:right" = false →
      get_alignment (.tag nm attrs cs) = TA_LEFT) := by
  refine ⟨?_, fun nm cs => rfl, fun nm cs => rfl, fun nm cs => rfl, ?_⟩
  · intro nm attrs cs h
    simp only [get_alignment, h, Option.getD_none]
    decide
  · intro nm attrs cs h1 h2 h3 h4
    simp [get_alignment, h1, h2, h3, h4]

/-- C7, witness: a style attribute with an unrelated value defaults to
left. -/
theorem claim_C7_witness :
    (containsSub "color: red" "text-align: center" = false ∧
     containsSub "color: red" "text-align:center" = false ∧
     containsSub "color: red" "text-align: right" = false ∧
     containsSub "color: red" "text-align:right" = false) ∧
    get_alignment (.tag "p" [("style", "color: red")] []) = TA_LEFT :=
  ⟨⟨by decide, by decide, by decide, by decide⟩,
   claim_C7.2.2.2.2 "p" [("style", "color: red")] []
     (by decide) (by decide) (by decide) (by decide)⟩

/-- C8: each heading level emits its styled paragraph followed by one
spacer, of 6 mm, 4 mm and 3 mm for levels 1, 2 and 3, and those heights
strictly decrease as the level increases. -/
theorem claim_C8 :
    (∀ a cs, blockFlowables (.tag "h1" a cs) =
      [Flowable.para (process_inline (.tag "h1" a cs))
        ⟨"h1", "Heading1", some (get_alignment (.tag "h1" a cs)), none, none⟩,
       Flowable.spacer 1 6]) ∧
    (∀ a cs, blockFlowables (.tag "h2" a cs) =
      [Flowable.para (process_inline (.tag "h2" a cs))
        ⟨"h2", "Heading2", some (get_alignment (.tag "h2" a cs)), none, none⟩,
       Flowable.spacer 1 4]) ∧
    (∀ a cs, blockFlowables (.tag "h3" a cs) =
      [Flowable.para (process_inline (.tag "h3" a cs))
        ⟨"h3", "Heading3", some (get_alignment (.tag "h3" a cs)), none, none⟩,
       Flowable.spacer 1 3]) ∧
    (3 : Int) < 4 ∧ (4 : Int) < 6 := by
  refine ⟨fun a cs => rfl, fun a cs => rfl, fun a cs => rfl, by decide, by decide⟩

/-- C9: the ordinal counter advances for every direct `li`, including
items whose direct text is empty after trimming (they emit no block but
still consume their ordinal), so in `<ol><li> </li><li>b</li></ol>` the
item `b` carries marker `2.`, not `1.`. -/
theorem claim_C9 :
    (∀ isO lv k a lcs rest, pyStrip (directText lcs) = "" →
      renderItemsLis isO lv k (.tag "li" a lcs :: rest) =
        renderItemsNested lv lcs ++ renderItemsLis isO lv (k + 1) rest) ∧
    renderItems (.tag "ol" [] [.tag "li" [] [.text " "], .tag "li" [] [.text "b"]]) 0 =
      [⟨0, 2, true, "2.  ", "b"⟩] := by
  refine ⟨?_, by decide⟩
  intro isO lv k a lcs rest h
  simp [renderItemsLis, h]

/-- C9, witness: the skipped-item equation at `<li> </li>`. -/
theorem claim_C9_witness :
    pyStrip (directText [HNode.text " "]) = "" ∧
    renderItemsLis true 0 0 [HNode.tag "li" [] [HNode.text " "]] =
      renderItemsNested 0 [HNode.text " "] ++ renderItemsLis true 0 1 [] :=
  ⟨by decide, claim_C9.1 true 0 0 [] [HNode.text " "] [] (by decide)⟩

/-- C10: text segments are emitted into the run verbatim
(`process_inline` of a text child is the unmodified string), so a node
whose visible text is `a<b>c</b>` produces exactly that markup; the run
it denotes displays only `ac`, which differs from the node's visible
text.  An attached-document name with the same characters is escaped on
line 233, yielding a markup-free line. -/
theorem claim_C10 :
    process_inline (.tag "p" [] [HNode.text "a<b>c</b>"]) = "a<b>c</b>" ∧
    stripTags (process_inline (.tag "p" [] [HNode.text "a<b>c</b>"])) = "ac" ∧
    pyStrip (textContent (.tag "p" [] [HNode.text "a<b>c</b>"])) = "a<b>c</b>" ∧
    stripTags (process_inline (.tag "p" [] [HNode.text "a<b>c</b>"])) ≠
      pyStrip (textContent (.tag "p" [] [HNode.text "a<b>c</b>"])) ∧
    attachedNameLine 1 "a<b>c</b>" = "1. a&lt;b&gt;c&lt;/b&gt;" ∧
    stripTags (attachedNameLine 1 "a<b>c</b>") = attachedNameLine 1 "a<b>c</b>" := by
  decide

/-! ## Lemmas about the tag-removal automaton -/

theorem stripA_append (x : List Char) :
    ∀ (b : Bool) (y : List Char), stripA b (x ++ y) = stripA b x ++ stripA (tagState b x) y := by
  induction x with
  | nil => intro b y; rfl
  | cons c r ih =>
      intro b y
      cases b with
      | false =>
          by_cases hc : c = '<' <;> simp [stripA, tagState, hc, ih]
      | true =>
          by_cases hc : c = '>' <;> simp [stripA, tagState, hc, ih]

theorem tagState_append (x : List Char) :
    ∀ (b : Bool) (y : List Char), tagState b (x ++ y) = tagState (tagState b x) y := by
  induction x with
  | nil => intro b y; rfl
  | cons c r ih =>
      intro b y
      cases b with
      | false => by_cases hc : c = '<' <;> simp [tagState, hc, ih]
      | true => by_cases hc : c = '>' <;> simp [tagState, hc, ih]

theorem noLt_stripT (s : List Char) (h : noLt s = true) : stripT s = s := by
  induction s with
  | nil => rfl
  | cons c r ih =>
      simp only [noLt, List.all_cons, Bool.and_eq_true] at h
      have hc : ¬ c = '<' := by simpa using h.1
      simp only [stripT, stripA, hc, if_false, Bool.false_eq_true]
      exact congrArg (c :: ·) (ih (by simpa [noLt] using h.2))

theorem noLt_closed (s : List Char) (h : noLt s = true) : tagState false s = false := by
  induction s with
  | nil => rfl
  | cons c r ih =>
      simp only [noLt, List.all_cons, Bool.and_eq_true] at h
      have hc : ¬ c = '<' := by simpa using h.1
      simp only [tagState, hc, if_false, Bool.false_eq_true]
      exact ih (by simpa [noLt] using h.2)

theorem stripA_sublist : ∀ (l : List Char) (b : Bool), (stripA b l).Sublist l := by
  intro l
  induction l with
  | nil => intro b; simp [stripA]
  | cons c r ih =>
      intro b
      cases b with
      | false =>
          simp only [stripA]
          by_cases hc : c = '<'
          · rw [if_pos hc]
            exact (ih true).trans (List.sublist_cons_self c r)
          · rw [if_neg hc]
            exact (ih false).cons₂ c
      | true =>
          simp only [stripA]
          by_cases hc : c = '>'
          · rw [if_pos hc]
            exact (ih false).trans (List.sublist_cons_self c r)
          · rw [if_neg hc]
            exact (ih true).trans (List.sublist_cons_self c r)

theorem noLt_sublist {t s : List Char} (hsub : t.Sublist s) (h : noLt s = true) :
    noLt t = true := by
  rw [noLt, List.all_eq_true] at *
  exact fun c hc => h c (hsub.subset hc)

/-! ## Lemmas about whitespace stripping -/

theorem wsp_append {x y : List Char} : WSp (x ++ y) ↔ WSp x ∧ WSp y := by
  constructor
  · exact fun h => ⟨fun c hc => h c (List.mem_append_left y hc),
      fun c hc => h c (List.mem_append_right x hc)⟩
  · rintro ⟨hx, hy⟩ c hc
    rcases List.mem_append.1 hc with hc | hc
    · exact hx c hc
    · exact hy c hc

theorem wsp_reverse {x : List Char} : WSp x.reverse ↔ WSp x := by
  constructor <;> intro h c hc
  · exact h c (by simpa using hc)
  · exact h c (by simpa using hc)

theorem dropW_eq_nil_iff {l : List Char} : dropW l = [] ↔ WSp l :=
  List.dropWhile_eq_nil_iff

theorem dropW_ws_append {s : List Char} (h : WSp s) (x : List Char) :
    dropW (s ++ x) = dropW x := by
  have hs : (List.dropWhile isPyWS s).isEmpty = true := by
    rw [List.isEmpty_iff]
    exact dropW_eq_nil_iff.2 h
  simp [dropW, List.dropWhile_append, hs]

theorem dropW_nonws_append {s : List Char} (h : ¬ WSp s) (x : List Char) :
    dropW (s ++ x) = dropW s ++ x := by
  have hs : ¬ (List.dropWhile isPyWS s).isEmpty = true := by
    rw [List.isEmpty_iff]
    exact fun he => h (dropW_eq_nil_iff.1 he)
  simp [dropW, List.dropWhile_append, hs]

theorem wsp_of_dropW_wsp {l : List Char} (h : WSp (dropW l)) : WSp l := by
  intro c hc
  have := List.takeWhile_append_dropWhile isPyWS l
  rw [← this] at hc
  rcases List.mem_append.1 hc with hc | hc
  · exact List.mem_takeWhile_imp hc
  · exact h c hc

theorem dropWEnd_ws_append {y : List Char} (h : WSp y) (x : List Char) :
    dropWEnd (x ++ y) = dropWEnd x := by
  simp only [dropWEnd, List.reverse_append]
  rw [dropW_ws_append (wsp_reverse.2 h)]

theorem dropWEnd_nonws_append {y : List Char} (h : ¬ WSp y) (x : List Char) :
    dropWEnd (x ++ y) = x ++ dropWEnd y := by
  simp only [dropWEnd, List.reverse_append]
  rw [dropW_nonws_append (fun hw => h (wsp_reverse.1 hw)), List.reverse_append,
    List.reverse_reverse]

theorem dropWEnd_eq_nil_iff {l : List Char} : dropWEnd l = [] ↔ WSp l := by
  simp only [dropWEnd, List.reverse_eq_nil_iff]
  rw [dropW_eq_nil_iff, wsp_reverse]

theorem trimL_eq_nil_iff {l : List Char} : trimL l = [] ↔ WSp l := by
  rw [trimL, dropWEnd_eq_nil_iff]
  constructor
  · exact wsp_of_dropW_wsp
  · intro h c hc
    exact h c ((List.dropWhile_sublist isPyWS).subset hc)

/-! ## Structure of trimmed character lists -/

theorem dropW_idem (l : List Char) : dropW (dropW l) = dropW l := by
  induction l with
  | nil => rfl
  | cons c r ih =>
      by_cases hw : isPyWS c = true
      · have h1 : dropW (c :: r) = dropW r := by
          simp only [dropW, List.dropWhile_cons, if_pos hw]
        rw [h1]
        exact ih
      · have h1 : dropW (c :: r) = c :: r := by
          simp only [dropW, List.dropWhile_cons, if_neg hw]
        rw [h1, h1]

theorem dropWEnd_sublist (l : List Char) : (dropWEnd l).Sublist l := by
  have h2 : (dropW l.reverse).reverse.Sublist l.reverse.reverse :=
    List.reverse_sublist.mpr (List.dropWhile_sublist isPyWS)
  simpa [dropWEnd] using h2

theorem dropWEnd_prefix (l : List Char) : dropWEnd l <+: l := by
  have h : List.dropWhile isPyWS l.reverse <:+ l.reverse := List.dropWhile_suffix isPyWS
  have h2 := List.reverse_prefix.mpr h
  simpa [dropWEnd, dropW] using h2

theorem dropWEnd_idem (l : List Char) : dropWEnd (dropWEnd l) = dropWEnd l := by
  simp [dropWEnd, List.reverse_reverse, dropW_idem]

theorem trimmed_drops {l : List Char} (h : trimL l = l) :
    dropW l = l ∧ dropWEnd l = l := by
  have h1 : (dropW l).length ≤ l.length := (List.dropWhile_sublist isPyWS).length_le
  have h2 : (dropWEnd (dropW l)).length ≤ (dropW l).length :=
    (dropWEnd_sublist (dropW l)).length_le
  have hlen : l.length ≤ (dropWEnd (dropW l)).length := by rw [trimL] at h; rw [h]
  have hd : dropW l = l :=
    (List.dropWhile_sublist isPyWS).eq_of_length (le_antisymm h1 (le_trans hlen h2))
  refine ⟨hd, ?_⟩
  rw [trimL, hd] at h
  exact h

theorem head_not_ws {l : List Char} (h : dropW l = l) :
    ∀ c r, l = c :: r → isPyWS c = false := by
  intro c r hl
  subst hl
  by_cases hw : isPyWS c = true
  · rw [dropW, List.dropWhile_cons, if_pos hw] at h
    have hlen := (List.dropWhile_sublist (p := isPyWS) (l := r)).length_le
    rw [h] at hlen
    simp at hlen
  · simpa using hw

theorem nonws_dropW {l : List Char} (hh : ∀ c r, l = c :: r → isPyWS c = false) :
    dropW l = l := by
  cases l with
  | nil => rfl
  | cons c r => rw [dropW, List.dropWhile_cons, if_neg (by simp [hh c r rfl])]

theorem trimmed_of_ends {l : List Char}
    (h1 : ∀ c r, l = c :: r → isPyWS c = false)
    (h2 : ∀ c r, l.reverse = c :: r → isPyWS c = false) : trimL l = l := by
  have hd : dropW l = l := nonws_dropW h1
  have he : dropWEnd l = l := by
    rw [dropWEnd, nonws_dropW h2, List.reverse_reverse]
  rw [trimL, hd, he]

theorem trimL_trimL (l : List Char) : trimL (trimL l) = trimL l := by
  have hdw : dropW (trimL l) = trimL l := by
    apply nonws_dropW
    intro d r2 hdr
    obtain ⟨rest, hrest⟩ := dropWEnd_prefix (dropW l)
    have hy : dropWEnd (dropW l) = d :: r2 := hdr
    rw [hy] at hrest
    have hdl : dropW l = d :: (r2 ++ rest) := by
      rw [← hrest]
      rfl
    exact head_not_ws (dropW_idem l) d (r2 ++ rest) hdl
  have hde : dropWEnd (trimL l) = trimL l := by
    rw [trimL, dropWEnd_idem]
  rw [trimL, hdw, hde]

/-! ## Lemmas about Pieces -/

theorem pieces_strip {J T : List Char} (h : Pieces J T) : stripT J = T := by
  induction h with
  | nil => rfl
  | txt s J T hs h ih =>
      rw [stripT, stripA_append, noLt_closed s hs, ← stripT, noLt_stripT s hs, ← stripT, ih]
  | elt l m J T hstrip hclosed hl hm hnil hgood h ih =>
      rw [stripT, stripA_append, hclosed, ← stripT, hstrip, ← stripT, ih]

theorem pieces_closed {J T : List Char} (h : Pieces J T) : tagState false J = false := by
  induction h with
  | nil => rfl
  | txt s J T hs h ih => rw [tagState_append, noLt_closed s hs, ih]
  | elt l m J T hstrip hclosed hl hm hnil hgood h ih => rw [tagState_append, hclosed, ih]

theorem pieces_ws_iff {J T : List Char} (h : Pieces J T) : WSp J ↔ WSp T := by
  induction h with
  | nil => exact Iff.rfl
  | txt s J T hs h ih => rw [wsp_append, wsp_append, ih]
  | elt l m J T hstrip hclosed hl hm hnil hgood h ih =>
      rw [wsp_append, wsp_append, ih]
      have hlm : WSp l ↔ WSp m := by
        constructor
        · intro hw c hc
          have hsub : m.Sublist l := by
            rw [← hstrip]
            exact stripA_sublist l false
          exact hw c (hsub.subset hc)
        · intro hw
          have hm0 : m = [] := by
            have := trimL_eq_nil_iff.2 hw
            rw [hm] at this
            exact this
          rw [hnil hm0]
          intro c hc
          simp at hc
      rw [hlm]

theorem pieces_front {J T : List Char} (h : Pieces J T) : Pieces (dropW J) (dropW T) := by
  induction h with
  | nil => exact Pieces.nil
  | txt s J T hs h ih =>
      by_cases hws : WSp s
      · rw [dropW_ws_append hws, dropW_ws_append hws]
        exact ih
      · rw [dropW_nonws_append hws, dropW_nonws_append hws]
        exact Pieces.txt (dropW s) J T (noLt_sublist (List.dropWhile_sublist isPyWS) hs) h
  | elt l m J T hstrip hclosed hl hm hnil hgood h ih =>
      by_cases hmn : m = []
      · have hln := hnil hmn
        subst hmn
        subst hln
        simpa using ih
      · have hld : dropW l = l := (trimmed_drops hl).1
        have hmd : dropW m = m := (trimmed_drops hm).1
        have hln : l ≠ [] := by
          intro hl0
          exact hmn (by rw [← hstrip, hl0]; rfl)
        have hwl : ¬ WSp l := by
          intro hw
          obtain ⟨c, r, rfl⟩ : ∃ c r, l = c :: r := by
            cases l with
            | nil => exact absurd rfl hln
            | cons c r => exact ⟨c, r, rfl⟩
          have := head_not_ws hld c r rfl
          rw [hw c (by simp)] at this
          cases this
        have hwm : ¬ WSp m := by
          intro hw
          have hm0 : m = [] := by
            have := trimL_eq_nil_iff.2 hw
            rw [hm] at this
            exact this
          exact hmn hm0
        rw [dropW_nonws_append hwl, dropW_nonws_append hwm, hld, hmd]
        exact Pieces.elt l m J T hstrip hclosed hl hm hnil hgood h

theorem pieces_back {J T : List Char} (h : Pieces J T) : Pieces (dropWEnd J) (dropWEnd T) := by
  induction h with
  | nil => exact Pieces.nil
  | txt s J T hs h ih =>
      by_cases hws : WSp J
      · have hwt : WSp T := (pieces_ws_iff h).1 hws
        rw [dropWEnd_ws_append hws, dropWEnd_ws_append hwt]
        have hx := Pieces.txt (dropWEnd s) [] []
          (noLt_sublist (dropWEnd_sublist s) hs) Pieces.nil
        simpa using hx
      · have hwt : ¬ WSp T := fun hw => hws ((pieces_ws_iff h).2 hw)
        rw [dropWEnd_nonws_append hws, dropWEnd_nonws_append hwt]
        exact Pieces.txt s (dropWEnd J) (dropWEnd T) hs ih
  | elt l m J T hstrip hclosed hl hm hnil hgood h ih =>
      by_cases hws : WSp J
      · have hwt : WSp T := (pieces_ws_iff h).1 hws
        rw [dropWEnd_ws_append hws, dropWEnd_ws_append hwt,
          (trimmed_drops hl).2, (trimmed_drops hm).2]
        have hx := Pieces.elt l m [] [] hstrip hclosed hl hm hnil hgood Pieces.nil
        simpa using hx
      · have hwt : ¬ WSp T := fun hw => hws ((pieces_ws_iff h).2 hw)
        rw [dropWEnd_nonws_append hws, dropWEnd_nonws_append hwt]
        exact Pieces.elt l m (dropWEnd J) (dropWEnd T) hstrip hclosed hl hm hnil hgood ih

theorem pieces_trimL {J T : List Char} (h : Pieces J T) : Pieces (trimL J) (trimL T) :=
  pieces_back (pieces_front h)

theorem pieces_strip_trim {J T : List Char} (h : Pieces J T) : stripT (trimL J) = trimL T :=
  pieces_strip (pieces_trimL h)

theorem pieces_trim_nil {J T : List Char} (h : Pieces J T) (ht : trimL T = []) :
    trimL J = [] :=
  trimL_eq_nil_iff.2 ((pieces_ws_iff h).2 (trimL_eq_nil_iff.1 ht))

/-! ## Lemmas about the tag-span collector -/

theorem tagSpans_append (x : List Char) :
    ∀ (st : Option (List Char)) (y : List Char),
      tagSpans st (x ++ y) = tagSpans st x ++ tagSpans (tagSpanState st x) y := by
  induction x with
  | nil => intro st y; rfl
  | cons c r ih =>
      intro st y
      cases st with
      | none => by_cases hc : c = '<' <;> simp [tagSpans, tagSpanState, hc, ih]
      | some acc => by_cases hc : c = '>' <;> simp [tagSpans, tagSpanState, hc, ih]

theorem tagSpanState_append (x : List Char) :
    ∀ (st : Option (List Char)) (y : List Char),
      tagSpanState st (x ++ y) = tagSpanState (tagSpanState st x) y := by
  induction x with
  | nil => intro st y; rfl
  | cons c r ih =>
      intro st y
      cases st with
      | none => by_cases hc : c = '<' <;> simp [tagSpanState, hc, ih]
      | some acc => by_cases hc : c = '>' <;> simp [tagSpanState, hc, ih]

theorem noLt_spans (s : List Char) (h : noLt s = true) :
    tagSpans none s = [] ∧ tagSpanState none s = none := by
  induction s with
  | nil => exact ⟨rfl, rfl⟩
  | cons c r ih =>
      simp only [noLt, List.all_cons, Bool.and_eq_true] at h
      have hc : ¬ c = '<' := by simpa using h.1
      have hr := ih (by simpa [noLt] using h.2)
      simp only [tagSpans, tagSpanState, hc, if_false]
      exact hr

theorem tagState_spanState (x : List Char) :
    ∀ st : Option (List Char), tagState st.isSome x = (tagSpanState st x).isSome := by
  induction x with
  | nil => intro st; rfl
  | cons c r ih =>
      intro st
      cases st with
      | none =>
          by_cases hc : c = '<'
          · simpa [tagState, tagSpanState, hc] using ih (some [])
          · simpa [tagState, tagSpanState, hc] using ih none
      | some acc =>
          by_cases hc : c = '>'
          · simpa [tagState, tagSpanState, hc] using ih none
          · simpa [tagState, tagSpanState, hc] using ih (some (c :: acc))

theorem closed_spanState {x : List Char} (h : tagState false x = false) :
    tagSpanState none x = none := by
  have hx := tagState_spanState x none
  rw [Option.isSome_none] at hx
  cases hs : tagSpanState none x with
  | none => rfl
  | some acc =>
      rw [hs] at hx
      rw [h] at hx
      simp at hx

theorem goodTags_append {x y : List Char} (hst : tagSpanState none x = none) :
    goodTags (x ++ y) = (goodTags x && goodTags y) := by
  rw [goodTags, tagSpans_append, hst, List.all_append]
  rfl

theorem noLt_goodTags_append {x y : List Char} (h : noLt x = true) :
    goodTags (x ++ y) = goodTags y := by
  rw [goodTags_append (noLt_spans x h).2, goodTags, (noLt_spans x h).1]
  simp [goodTags]

theorem pieces_good {J T : List Char} (h : Pieces J T) : goodTags J = true := by
  induction h with
  | nil => rfl
  | txt s J T hs h ih => rw [noLt_goodTags_append hs]; exact ih
  | elt l m J T hstrip hclosed hl hm hnil hgood h ih =>
      rw [goodTags_append (closed_spanState hclosed), hgood, ih]
      rfl

/-! ## The inline formatter's output over clean content is a piece list -/

theorem child_elt_props {Jc Tc : List Char} (h : Pieces Jc Tc) :
    stripT (trimL Jc) = trimL Tc ∧ tagState false (trimL Jc) = false ∧
    trimL (trimL Jc) = trimL Jc ∧ trimL (trimL Tc) = trimL Tc ∧
    (trimL Tc = [] → trimL Jc = []) :=
  ⟨pieces_strip_trim h, pieces_closed (pieces_trimL h), trimL_trimL Jc, trimL_trimL Tc,
    pieces_trim_nil h⟩

theorem wrap_trimmed (w1 w2 l : List Char)
    (c1 : Char) (r1 : List Char) (hw1 : w1 = c1 :: r1) (hc1 : isPyWS c1 = false)
    (c2 : Char) (r2 : List Char) (hw2 : w2.reverse = c2 :: r2) (hc2 : isPyWS c2 = false) :
    trimL (w1 ++ (l ++ w2)) = w1 ++ (l ++ w2) := by
  apply trimmed_of_ends
  · intro c r hcr
    rw [hw1] at hcr
    simp only [List.cons_append] at hcr
    injection hcr with h1 h2
    rw [← h1]
    exact hc1
  · intro c r hcr
    rw [List.reverse_append, List.reverse_append, hw2, List.cons_append,
      List.cons_append] at hcr
    injection hcr with h1 h2
    rw [← h1]
    exact hc2

theorem wrapped_elt_piece (w1 w2 : List Char) {Jc Tc : List Char}
    (h : Pieces Jc Tc) (hne : trimL Tc ≠ [])
    (hw1s : stripA false w1 = []) (hw1t : tagState false w1 = false)
    (hw2s : stripA false w2 = []) (hw2t : tagState false w2 = false)
    (hw1g : goodTags w1 = true) (hw1sp : tagSpanState none w1 = none)
    (hw2g : goodTags w2 = true) (hw2sp : tagSpanState none w2 = none)
    (c1 : Char) (r1 : List Char) (hw1 : w1 = c1 :: r1) (hc1 : isPyWS c1 = false)
    (c2 : Char) (r2 : List Char) (hw2 : w2.reverse = c2 :: r2) (hc2 : isPyWS c2 = false)
    {J T : List Char} (hrest : Pieces J T) :
    Pieces ((w1 ++ (trimL Jc ++ w2)) ++ J) (trimL Tc ++ T) := by
  obtain ⟨hstrip, hclosed, hl, hm, _⟩ := child_elt_props h
  refine Pieces.elt (w1 ++ (trimL Jc ++ w2)) (trimL Tc) J T ?_ ?_ ?_ hm
    (fun hmp => absurd hmp hne) ?_ hrest
  · rw [stripT, stripA_append, hw1s, hw1t, List.nil_append, stripA_append, hclosed,
      hw2s, List.append_nil]
    exact hstrip
  · rw [tagState_append, hw1t, tagState_append, hclosed, hw2t]
  · exact wrap_trimmed w1 w2 (trimL Jc) c1 r1 hw1 hc1 c2 r2 hw2 hc2
  · rw [goodTags_append hw1sp, goodTags_append (closed_spanState hclosed), hw1g, hw2g,
      pieces_good (pieces_trimL h)]
    rfl

theorem clean_pieces :
    ∀ cs : List HNode, cleanForest cs = true →
      Pieces (sjoin (processChildren cs)).data (sjoin (inlineTexts cs)).data := by
  apply forestInd
    (fun e => match e with
      | .text _ => True
      | .tag _ _ ccs => cleanForest ccs = true →
          Pieces (sjoin (processChildren ccs)).data (sjoin (inlineTexts ccs)).data)
    (fun cs => cleanForest cs = true →
      Pieces (sjoin (processChildren cs)).data (sjoin (inlineTexts cs)).data)
  · intro s; trivial
  · intro n a cs h; exact h
  · intro _; exact Pieces.nil
  · intro c cs hP hQ hclean
    simp only [cleanForest, Bool.and_eq_true] at hclean
    obtain ⟨hc, hcs⟩ := hclean
    have hrest := hQ hcs
    have hJ : (sjoin (processChildren (c :: cs))).data
        = (processChild c).data ++ (sjoin (processChildren cs)).data := by
      simp [processChildren, sjoin]
    have hT : (sjoin (inlineTexts (c :: cs))).data
        = (inlineText c).data ++ (sjoin (inlineTexts cs)).data := by
      simp [inlineTexts, sjoin]
    rw [hJ, hT]
    cases c with
    | text s =>
        have hs : noLt s.data = true := by simpa [cleanNode] using hc
        have hps : (processChild (HNode.text s)).data = s.data := by
          simp [processChild]
        have his : (inlineText (HNode.text s)).data = s.data := by
          simp [inlineText]
        rw [hps, his]
        exact Pieces.txt s.data _ _ hs hrest
    | tag n a ccs =>
        simp only [cleanNode, Bool.and_eq_true] at hc
        obtain ⟨hccs, hsty⟩ := hc
        have hinner := hP hccs
        have hit : (inlineText (HNode.tag n a ccs)).data
            = trimL (sjoin (inlineTexts ccs)).data := by
          simp [inlineText, pyStrip]
        rw [hit]
        by_cases hb : (n == "strong" || n == "b") = true
        · have hne : trimL (sjoin (inlineTexts ccs)).data ≠ [] := by
            have hstyled :
                (n == "strong" || n == "b" || n == "em" || n == "i" || n == "u") = true := by
              simp only [Bool.or_eq_true] at hb ⊢
              tauto
            have hne2 : pyStrip (sjoin (inlineTexts ccs)) ≠ "" := by
              rw [hstyled] at hsty
              simpa using hsty
            intro h0
            exact hne2 (congrArg String.mk h0)
          have hpc : (processChild (HNode.tag n a ccs)).data
              = "<b>".data ++ (trimL (sjoin (processChildren ccs)).data ++ "</b>".data) := by
            simp [processChild, hb, pyStrip, String.data_append]
          rw [hpc]
          exact wrapped_elt_piece "<b>".data "</b>".data hinner hne (by decide) (by decide)
            (by decide) (by decide) (by decide) (by decide) (by decide) (by decide)
            '<' ['b', '>'] (by decide) (by decide)
            '>' ['b', '/', '<'] (by decide) (by decide) hrest
        · by_cases hi : (n == "em" || n == "i") = true
          · have hne : trimL (sjoin (inlineTexts ccs)).data ≠ [] := by
              have hstyled :
                  (n == "strong" || n == "b" || n == "em" || n == "i" || n == "u") = true := by
                simp only [Bool.or_eq_true] at hi ⊢
                tauto
              have hne2 : pyStrip (sjoin (inlineTexts ccs)) ≠ "" := by
                rw [hstyled] at hsty
                simpa using hsty
              intro h0
              exact hne2 (congrArg String.mk h0)
            have hpc : (processChild (HNode.tag n a ccs)).data
                = "<i>".data ++ (trimL (sjoin (processChildren ccs)).data ++ "</i>".data) := by
              simp [processChild, hb, hi, pyStrip, String.data_append]
            rw [hpc]
            exact wrapped_elt_piece "<i>".data "</i>".data hinner hne (by decide) (by decide)
              (by decide) (by decide) (by decide) (by decide) (by decide) (by decide)
              '<' ['i', '>'] (by decide) (by decide)
              '>' ['i', '/', '<'] (by decide) (by decide) hrest
          · by_cases hu : (n == "u") = true
            · have hne : trimL (sjoin (inlineTexts ccs)).data ≠ [] := by
                have hstyled :
                    (n == "strong" || n == "b" || n == "em" || n == "i" || n == "u") = true := by
                  simp only [Bool.or_eq_true] at hu ⊢
                  tauto
                have hne2 : pyStrip (sjoin (inlineTexts ccs)) ≠ "" := by
                  rw [hstyled] at hsty
                  simpa using hsty
                intro h0
                exact hne2 (congrArg String.mk h0)
              have hpc : (processChild (HNode.tag n a ccs)).data
                  = "<u>".data ++ (trimL (sjoin (processChildren ccs)).data ++ "</u>".data) := by
                simp [processChild, hb, hi, hu, pyStrip, String.data_append]
              rw [hpc]
              exact wrapped_elt_piece "<u>".data "</u>".data hinner hne (by decide) (by decide)
                (by decide) (by decide) (by decide) (by decide) (by decide) (by decide)
                '<' ['u', '>'] (by decide) (by decide)
                '>' ['u', '/', '<'] (by decide) (by decide) hrest
            · have hpc : (processChild (HNode.tag n a ccs)).data
                  = trimL (sjoin (processChildren ccs)).data := by
                simp [processChild, hb, hi, hu, pyStrip]
              rw [hpc]
              obtain ⟨hstrip, hclosed, hl, hm, hnil⟩ := child_elt_props hinner
              exact Pieces.elt _ _ _ _ hstrip hclosed hl hm hnil
                (pieces_good (pieces_trimL hinner)) hrest

/-- C3, counterexample: in `<p>a <b> b </b> c</p>` the formatter trims the
bold child's content at its own boundary (line 97 strips at every
recursion level), so the run's concatenated text is `a b c` while the
node's visible text trimmed only at the outer boundary is `a  b  c`. -/
theorem claim_C3_counterexample :
    process_inline (HNode.tag "p" []
        [HNode.text "a ", HNode.tag "b" [] [HNode.text " b "], HNode.text " c"]) =
      "a <b>b</b> c" ∧
    stripTags (process_inline (HNode.tag "p" []
        [HNode.text "a ", HNode.tag "b" [] [HNode.text " b "], HNode.text " c"])) =
      "a b c" ∧
    pyStrip (textContent (HNode.tag "p" []
        [HNode.text "a ", HNode.tag "b" [] [HNode.text " b "], HNode.text " c"])) =
      "a  b  c" ∧
    ("a b c" : String) ≠ "a  b  c" := by
  decide

/-- C3, amended: for every block element whose text segments are free of
`<` and whose styled descendants have nonempty trimmed content, the
output run's concatenated text (the markup string with its tags removed)
equals the node's visible text trimmed at the outer boundary and at every
nested element boundary — interior whitespace within a text segment is
preserved, but whitespace adjacent to nested inline tags is trimmed away. -/
theorem claim_C3 (n : String) (a : List (String × String)) (cs : List HNode)
    (h : cleanForest cs = true) :
    stripTags (process_inline (HNode.tag n a cs)) = inlineText (HNode.tag n a cs) := by
  have hp := clean_pieces cs h
  have h1 : process_inline (HNode.tag n a cs) = pyStrip (sjoin (processChildren cs)) := by
    simp [process_inline]
  have h2 : inlineText (HNode.tag n a cs) = pyStrip (sjoin (inlineTexts cs)) := by
    simp [inlineText]
  rw [h1, h2]
  exact congrArg String.mk (pieces_strip_trim hp)

/-- C3, witness for the amended claim: `<p> a <b>b c</b> d </p>` is clean,
and the run's text is the per-boundary-trimmed visible text `a b c d`. -/
theorem claim_C3_witness :
    cleanForest [HNode.text " a ", HNode.tag "b" [] [HNode.text "b c"],
        HNode.text " d "] = true ∧
    stripTags (process_inline (HNode.tag "p" [] [HNode.text " a ",
        HNode.tag "b" [] [HNode.text "b c"], HNode.text " d "])) =
      inlineText (HNode.tag "p" [] [HNode.text " a ",
        HNode.tag "b" [] [HNode.text "b c"], HNode.text " d "]) :=
  ⟨by decide,
   claim_C3 "p" [] [HNode.text " a ", HNode.tag "b" [] [HNode.text "b c"],
     HNode.text " d "] (by decide)⟩

/-! ## Digits never contain markup characters -/

theorem digitChar_ne (n : Nat) : Nat.digitChar n ≠ '<' := by
  by_cases h : n < 16
  · interval_cases n <;> decide
  · have h16 : ∀ k : Nat, k < 16 → ¬ n = k := fun k hk he => h (he ▸ hk)
    unfold Nat.digitChar
    rw [if_neg (h16 0 (by norm_num)), if_neg (h16 1 (by norm_num)),
      if_neg (h16 2 (by norm_num)), if_neg (h16 3 (by norm_num)),
      if_neg (h16 4 (by norm_num)), if_neg (h16 5 (by norm_num)),
      if_neg (h16 6 (by norm_num)), if_neg (h16 7 (by norm_num)),
      if_neg (h16 8 (by norm_num)), if_neg (h16 9 (by norm_num)),
      if_neg (h16 10 (by norm_num)), if_neg (h16 11 (by norm_num)),
      if_neg (h16 12 (by norm_num)), if_neg (h16 13 (by norm_num)),
      if_neg (h16 14 (by norm_num)), if_neg (h16 15 (by norm_num))]
    decide

theorem toDigitsCore_ne (b : Nat) :
    ∀ (fuel n : Nat) (acc : List Char), (∀ c ∈ acc, ¬ c = '<') →
      ∀ c ∈ Nat.toDigitsCore b fuel n acc, ¬ c = '<' := by
  intro fuel
  induction fuel with
  | zero => intro n acc hacc; simpa [Nat.toDigitsCore] using hacc
  | succ f ih =>
      intro n acc hacc
      have hd : ∀ c ∈ Nat.digitChar (n % b) :: acc, ¬ c = '<' := by
        intro c hc
        rcases List.mem_cons.1 hc with hc | hc
        · subst hc
          exact digitChar_ne (n % b)
        · exact hacc c hc
      simp only [Nat.toDigitsCore]
      split
      · exact hd
      · exact ih (n / b) _ hd

theorem noLt_toString_nat (n : Nat) : noLt (toString n).data = true := by
  rw [noLt, List.all_eq_true]
  intro c hc
  have h := toDigitsCore_ne 10 (n + 1) n [] (by simp) c hc
  simpa using h

/-- The marker prepended to a list item never carries markup characters. -/
theorem marker_noLt (isO : Bool) (num : Nat) :
    noLt (if isO then toString num ++ ".  " else "•  ").data = true := by
  cases isO with
  | false =>
      show noLt ("•  ").data = true
      decide
  | true =>
      show noLt ((toString num ++ ".  ").data) = true
      rw [String.data_append, noLt, List.all_append, Bool.and_eq_true]
      exact ⟨noLt_toString_nat num, by decide⟩

/-! ## Markup emitted by the formatter from clean content is always valid -/

theorem directText_pieces :
    ∀ lcs : List HNode, cleanForest lcs = true →
      ∃ T, Pieces (directText lcs).data T := by
  intro lcs
  induction lcs with
  | nil => intro h; exact ⟨[], Pieces.nil⟩
  | cons c rest ih =>
      intro h
      simp only [cleanForest, Bool.and_eq_true] at h
      obtain ⟨hc, hr⟩ := h
      cases c with
      | text s =>
          obtain ⟨T, hT⟩ := ih hr
          refine ⟨s.data ++ T, ?_⟩
          have hd : (directText (HNode.text s :: rest)).data
              = s.data ++ (directText rest).data := by
            simp [directText, String.data_append]
          rw [hd]
          exact Pieces.txt s.data _ _ (by simpa [cleanNode] using hc) hT
      | tag n a ccs =>
          by_cases hn : (n == "ul" || n == "ol") = true
          · refine ⟨[], ?_⟩
            have hd : directText (HNode.tag n a ccs :: rest) = "" := by
              simp [directText, hn]
            rw [hd]
            exact Pieces.nil
          · simp only [cleanNode, Bool.and_eq_true] at hc
            obtain ⟨hccs, _⟩ := hc
            have hinner := clean_pieces ccs hccs
            obtain ⟨T, hT⟩ := ih hr
            obtain ⟨hstrip, hclosed, hl, hm, hnil⟩ := child_elt_props hinner
            refine ⟨trimL (sjoin (inlineTexts ccs)).data ++ T, ?_⟩
            have hd : (directText (HNode.tag n a ccs :: rest)).data
                = trimL (sjoin (processChildren ccs)).data ++ (directText rest).data := by
              simp [directText, hn, process_inline, pyStrip, String.data_append]
            rw [hd]
            exact Pieces.elt _ _ _ _ hstrip hclosed hl hm hnil
              (pieces_good (pieces_trimL hinner)) hT

theorem itemsValid_aux :
    ∀ cs : List HNode,
      (cleanForest cs = true → ∀ isO lv k i, i ∈ renderItemsLis isO lv k cs →
        paraTextValid (i.marker ++ i.text) = true) ∧
      (cleanForest cs = true → ∀ lv i, i ∈ renderItemsNested lv cs →
        paraTextValid (i.marker ++ i.text) = true) := by
  apply forestInd
    (fun e => match e with
      | .text _ => True
      | .tag _ _ lcs =>
        (cleanForest lcs = true → ∀ isO lv k i, i ∈ renderItemsLis isO lv k lcs →
          paraTextValid (i.marker ++ i.text) = true) ∧
        (cleanForest lcs = true → ∀ lv i, i ∈ renderItemsNested lv lcs →
          paraTextValid (i.marker ++ i.text) = true))
  · intro s; trivial
  · intro n a cs h; exact h
  · constructor
    · intro h isO lv k i hi; simp [renderItemsLis] at hi
    · intro h lv i hi; simp [renderItemsNested] at hi
  · intro c cs hP hQ
    constructor
    · intro h isO lv k i hi
      simp only [cleanForest, Bool.and_eq_true] at h
      obtain ⟨hcN, hrest⟩ := h
      cases c with
      | text s => exact hQ.1 hrest isO lv k i (by simpa [renderItemsLis] using hi)
      | tag n a lcs =>
          by_cases hn : (n == "li") = true
          · simp only [renderItemsLis, hn, if_true, List.mem_append] at hi
            have hcl : cleanForest lcs = true := by
              simp only [cleanNode, Bool.and_eq_true] at hcN
              exact hcN.1
            rcases hi with (hi | hi) | hi
            · split at hi
              · simp only [List.mem_singleton] at hi
                subst hi
                show paraTextValid
                  ((if isO then toString (k + 1) ++ ".  " else "•  ") ++
                    pyStrip (directText lcs)) = true
                obtain ⟨T, hdp⟩ := directText_pieces lcs hcl
                have hgood := pieces_good (pieces_trimL hdp)
                show goodTags ((if isO then toString (k + 1) ++ ".  " else "•  ") ++
                    pyStrip (directText lcs)).data = true
                rw [String.data_append, noLt_goodTags_append (marker_noLt isO (k + 1))]
                exact hgood
              · simp at hi
            · exact hP.2 hcl lv i hi
            · exact hQ.1 hrest isO lv (k + 1) i hi
          · exact hQ.1 hrest isO lv k i (by simpa [renderItemsLis, hn] using hi)
    · intro h lv i hi
      simp only [cleanForest, Bool.and_eq_true] at h
      obtain ⟨hcN, hrest⟩ := h
      cases c with
      | text s => exact hQ.2 hrest lv i (by simpa [renderItemsNested] using hi)
      | tag n a ncs =>
          by_cases hn : (n == "ul" || n == "ol") = true
          · simp only [renderItemsNested, hn, if_true, List.mem_append] at hi
            have hcl : cleanForest ncs = true := by
              simp only [cleanNode, Bool.and_eq_true] at hcN
              exact hcN.1
            rcases hi with hi | hi
            · exact hP.1 hcl (n == "ol") (lv + 1) 0 i (by simpa [renderItems] using hi)
            · exact hQ.2 hrest lv i hi
          · exact hQ.2 hrest lv i (by simpa [renderItemsNested, hn] using hi)

theorem renderItems_valid (e : HNode) (lv : Nat)
    (h : cleanNode e = true) :
    ∀ i ∈ renderItems e lv, paraTextValid (i.marker ++ i.text) = true := by
  intro i hi
  cases e with
  | text s => simp [renderItems] at hi
  | tag n a cs =>
      simp only [cleanNode, Bool.and_eq_true] at h
      exact (itemsValid_aux cs).1 h.1 (n == "ol") lv 0 i (by simpa [renderItems] using hi)

/-- Every flowable a clean block emits constructs without raising: the
only markup in its paragraph texts is the formatter's own b/i/u tags. -/
theorem blockFlowables_ok (e : HNode) (h : cleanNode e = true) :
    flowablesOk (blockFlowables e) = true := by
  cases e with
  | text s => rfl
  | tag n a cs =>
      have hcf : cleanForest cs = true := by
        simp only [cleanNode, Bool.and_eq_true] at h
        exact h.1
      have hpi : paraTextValid (process_inline (HNode.tag n a cs)) = true := by
        have hg := pieces_good (pieces_trimL (clean_pieces cs hcf))
        have he : process_inline (HNode.tag n a cs) = pyStrip (sjoin (processChildren cs)) := by
          simp [process_inline]
        rw [he]
        exact hg
      by_cases h1 : (n == "h1") = true
      · simp [blockFlowables, h1, flowablesOk, flowOk, hpi]
      · by_cases h2 : (n == "h2") = true
        · simp [blockFlowables, h1, h2, flowablesOk, flowOk, hpi]
        · by_cases h3 : (n == "h3") = true
          · simp [blockFlowables, h1, h2, h3, flowablesOk, flowOk, hpi]
          · by_cases hp : (n == "p") = true
            · simp only [blockFlowables, h1, h2, h3, hp, if_true, if_false,
                Bool.false_eq_true]
              split
              · simp [flowablesOk, flowOk, hpi]
              · rfl
            · by_cases hl : (n == "ul" || n == "ol") = true
              · simp only [blockFlowables, h1, h2, h3, hp, hl, if_true, if_false,
                  Bool.false_eq_true]
                rw [flowablesOk, List.all_append, Bool.and_eq_true]
                constructor
                · rw [render_list_eq_items, List.all_eq_true]
                  intro f hf
                  obtain ⟨i, hi, hfi⟩ := List.mem_flatMap.1 hf
                  have hv := renderItems_valid (.tag n a cs) 0 h i hi
                  rcases List.mem_cons.1 hfi with hfe | hfe
                  · subst hfe
                    simpa [itemFlows, flowOk] using hv
                  · simp only [itemFlows, List.mem_singleton] at hfe
                    subst hfe
                    rfl
                · rfl
              · simp [blockFlowables, h1, h2, h3, hp, hl, flowablesOk]

/-- C4, counterexample: the conversion can raise.  The markup
`<p>&lt;foo&gt;x&lt;/foo&gt;</p>` parses (entities decoded) to a `p`
whose text is `<foo>x</foo>`; the text is nonempty, so line 175
constructs `Paragraph("<foo>x</foo>", ...)`, whose markup parser rejects
the unknown tag `foo` and raises `ValueError` out of
`html_to_flowables`. -/
theorem claim_C4_counterexample :
    html_to_flowablesE "<p>&lt;foo&gt;x&lt;/foo&gt;</p>"
        [HNode.tag "p" [] [HNode.text "<foo>x</foo>"]] = Except.error "ValueError" ∧
    html_to_flowables "<p>&lt;foo&gt;x&lt;/foo&gt;</p>"
        [HNode.tag "p" [] [HNode.text "<foo>x</foo>"]] =
      [Flowable.para "<foo>x</foo>" ⟨"p", "Normal", some TA_LEFT, none, none⟩,
       Flowable.spacer 1 2] ∧
    paraTextValid "<foo>x</foo>" = false := by
  decide

/-- C4, amended: the conversion raises `ValueError` exactly when one of
the paragraphs it emits has a markup text the paragraph parser rejects —
possible only because text is emitted unescaped; it never raises
otherwise.  In particular empty or whitespace-only input returns the
empty sequence, and any input whose text nodes are free of `<` (with
styled elements nonempty) returns its flowable sequence normally: the
formatter's own `b`/`i`/`u` markup is always accepted. -/
theorem claim_C4 (html : String) (soup : List HNode) :
    (pyStrip html = "" → html_to_flowablesE html soup = Except.ok []) ∧
    ((∀ e ∈ soup, cleanNode e = true) →
      html_to_flowablesE html soup = Except.ok (html_to_flowables html soup)) := by
  constructor
  · intro h
    simp [html_to_flowablesE, h]
  · intro h
    by_cases hh : pyStrip html = ""
    · simp [html_to_flowablesE, html_to_flowables, hh]
    · have hok : flowablesOk (soup.flatMap blockFlowables) = true := by
        rw [flowablesOk, List.all_eq_true]
        intro f hf
        obtain ⟨e, he, hfe⟩ := List.mem_flatMap.1 hf
        have hb := blockFlowables_ok e (h e he)
        rw [flowablesOk, List.all_eq_true] at hb
        exact hb f hfe
      simp [html_to_flowablesE, html_to_flowables, hh, hok]

/-- C4, witness: the empty input, and a clean styled paragraph that
converts without raising. -/
theorem claim_C4_witness :
    (pyStrip "" = "" ∧ html_to_flowablesE "" [] = Except.ok []) ∧
    ((∀ e ∈ [HNode.tag "p" [] [HNode.text "x ", HNode.tag "b" [] [HNode.text "y"]]],
        cleanNode e = true) ∧
      html_to_flowablesE "<p>x <b>y</b></p>"
          [HNode.tag "p" [] [HNode.text "x ", HNode.tag "b" [] [HNode.text "y"]]] =
        Except.ok (html_to_flowables "<p>x <b>y</b></p>"
          [HNode.tag "p" [] [HNode.text "x ", HNode.tag "b" [] [HNode.text "y"]]])) :=
  ⟨⟨rfl, (claim_C4 "" []).1 rfl⟩,
   ⟨by decide,
    (claim_C4 "<p>x <b>y</b></p>"
      [HNode.tag "p" [] [HNode.text "x ", HNode.tag "b" [] [HNode.text "y"]]]).2
      (by decide)⟩⟩
